import Mathlib

/-!
Verification development for the `mpy-coverage` coverage engine.

The definitions below are shallow embeddings of the Python sources:
`report.py` (merge engine, path mapper), `tracer.py` (execution tracer),
`mpy_analysis.py` (bytecode line-table decoder and declaration-line
compensation) and `cli.py` (test attribution).  Python strings are
embedded either as `String` (when only equality matters) or as
`List Char` (when prefix/suffix/substring structure matters); a Python
`set` is embedded as a duplicate-free list maintained by
`List.insert`, so that `sorted(s)` becomes `List.insertionSort`; JSON
objects are embedded as ordered association lists, matching Python
dict insertion-order semantics; raised exceptions are embedded with
`Except`.
-/

namespace MpyCoverage

/-! ## Data model

A stored capture record (`report.py` reads it with `_load_json`) is a
JSON object with keys `executed`, and optionally `executable`, `arcs`
and `_metadata`.  JSON objects are ordered association lists. -/

/-- The `executed`/`executable` JSON objects: file path → list of lines. -/
abbrev ExecMap := List (String × List Int)

/-- The `arcs` JSON object: file path → list of `[from, to]` pairs. -/
abbrev ArcMap := List (String × List (Int × Int))

/-- One decoded capture record / merged result.  A missing `executed`
key behaves exactly like an empty object (the code reads it with
`data.get("executed", {})`), so it is embedded as a plain list. -/
structure CovData where
  executed : ExecMap := []
  executable : Option ExecMap := none
  arcs : Option ArcMap := none
  metadata : Option (List (String × String)) := none
deriving DecidableEq

/-- Association-list lookup (Python `d[k]` / `k in d` on a dict whose
entries are listed in insertion order). -/
def lookupA {α : Type} : List (String × α) → String → Option α
  | [], _ => none
  | p :: ps, f => if p.1 = f then some p.2 else lookupA ps f

/-! ## Merge engine (`report.py`, `merge_coverage_data`)

The Python loop body is

    for filename, lines in data.get("executed", {}).items():
        if filename not in merged["executed"]:
            merged["executed"][filename] = set()
        merged["executed"][filename].update(lines)

followed by `merged["executed"][filename] = sorted(...)` per file.
`updateA` is that membership-test-then-update on one `(filename, lines)`
item; a new key is appended at the end, as in a Python dict. -/

/-- Python `s.update(lines)` on a set embedded as a duplicate-free list. -/
def setUpdate (s ls : List Int) : List Int :=
  ls.foldl (fun t x => List.insert x t) s

/-- One `merged[filename].update(lines)` step (creating the entry as an
empty set first if absent, appended in insertion order). -/
def updateA : List (String × List Int) → String → List Int → List (String × List Int)
  | [], f, ls => [(f, setUpdate [] ls)]
  | p :: ps, f, ls =>
    if p.1 = f then (p.1, setUpdate p.2 ls) :: ps else p :: updateA ps f ls

/-- Process one record's `executed` object, item by item. -/
def insertRec (acc : List (String × List Int)) (r : ExecMap) : List (String × List Int) :=
  r.foldl (fun m p => updateA m p.1 p.2) acc

/-- Process a list of records (the successfully loaded data dicts). -/
def mergeAux (acc : List (String × List Int)) (rs : List ExecMap) :
    List (String × List Int) :=
  rs.foldl insertRec acc

/-- The final `sorted(...)` conversion of every per-file set. -/
def finalize (m : List (String × List Int)) : ExecMap :=
  m.map (fun p => (p.1, p.2.insertionSort (· ≤ ·)))

/-- `merge_coverage_data` restricted to already-parsed records: the
returned dict is `{"executed": ...}` and nothing else — no
`executable`, `arcs` or `_metadata` key is ever produced. -/
def mergeRecords (rs : List CovData) : CovData :=
  { executed := finalize (mergeAux [] (rs.map (·.executed))) }

/-- The `for path in json_files` loop of `merge_coverage_data`, with
exception propagation: each list element is the outcome of
`_load_json` for one stored file, and a raised decode error aborts the
loop. -/
def mergeGo : List (String × List Int) → List (Except String CovData) → Except String CovData
  | acc, [] => .ok { executed := finalize acc }
  | _, .error e :: _ => .error e
  | acc, .ok d :: rest => mergeGo (insertRec acc d.executed) rest

/-- `merge_coverage_data` as written: it calls `_load_json(path)` on
each input file, which raises on a malformed record. -/
def mergeCoverageData (loaded : List (Except String CovData)) : Except String CovData :=
  mergeGo [] loaded

/-! Specification-side vocabulary for the merge theorems. -/

/-- Line `x` is stored for file `f` in the merge accumulator. -/
def memLookup (m : List (String × List Int)) (f : String) (x : Int) : Prop :=
  ∃ s, lookupA m f = some s ∧ x ∈ s

/-- Some input record lists file `f` in its `executed` object. -/
def mentions (rs : List CovData) (f : String) : Prop :=
  ∃ r ∈ rs, ∃ p ∈ r.executed, p.1 = f

/-- Line `x` of file `f` was executed by some input record: the
per-file union of the executed-line sets across all inputs. -/
def execLine (rs : List CovData) (f : String) (x : Int) : Prop :=
  ∃ r ∈ rs, ∃ p ∈ r.executed, p.1 = f ∧ x ∈ p.2

/-- The keys of an association list are pairwise distinct (true of
every Python dict, and an invariant of the merge accumulator). -/
def keysNodup {α : Type} (m : List (String × α)) : Prop :=
  (m.map Prod.fst).Nodup

/-- Every stored per-file set is duplicate-free (the embedding
invariant of Python sets). -/
def valuesNodup (m : List (String × List Int)) : Prop :=
  ∀ p ∈ m, (p.2 : List Int).Nodup

/-! ## Path mapper (`report.py`, `_apply_path_map` and `run_report`)

Paths are embedded as `List Char` so that Python's `startswith`,
slicing and `in` become list operations. -/

/-- A Python string, as a character list. -/
abbrev PStr := List Char

/-- The first component of `mapping.split("=", 1)`: everything before
the first `'='`. -/
def splitDevice (m : PStr) : PStr := m.takeWhile (· ≠ '=')

/-- The second component of `mapping.split("=", 1)`: everything after
the first `'='`. -/
def splitHost (m : PStr) : PStr := (m.dropWhile (· ≠ '=')).tail

/-- The inner `for mapping in path_maps` loop of `_apply_path_map` for
one filename: skip mappings without `'='`, take the first whose device
component is a string prefix of the filename (`break`), replacing it by
the host component; fall through unchanged. -/
def resolveMapping : List PStr → PStr → PStr
  | [], filename => filename
  | m :: rest, filename =>
    if '=' ∈ m then
      if (splitDevice m).isPrefixOf filename then
        splitHost m ++ filename.drop (splitDevice m).length
      else resolveMapping rest filename
    else resolveMapping rest filename

/-- `_apply_path_map`: the returned `{original_filename: resolved}`
dict. -/
def _apply_path_map (filenames : List PStr) (pathMaps : List PStr) : List (PStr × PStr) :=
  filenames.map (fun f => (f, resolveMapping pathMaps f))

/-- POSIX `os.path.isabs` (modelled from the Python stdlib): the path
starts with `'/'`. -/
def isabs : PStr → Bool
  | [] => false
  | c :: _ => c = '/'

/-- POSIX `os.path.join` on two components (modelled from the Python
stdlib): an absolute second component wins; otherwise a `'/'` separator
is inserted unless the first component is empty or already ends in
`'/'`. -/
def joinPath (a b : PStr) : PStr :=
  if isabs b then b
  else if a = [] ∨ a.getLast? = some '/' then a ++ b
  else a ++ '/' :: b

/-- The per-filename resolution done by `run_report`: apply the path
map, then, when a non-empty `source_root` is configured and the mapped
path is relative, join it under the root. -/
def resolveSourcePath (pathMaps : List PStr) (root : Option PStr) (filename : PStr) : PStr :=
  let resolved := resolveMapping pathMaps filename
  match root with
  | none => resolved
  | some r =>
    if r = [] then resolved
    else if isabs resolved then resolved
    else joinPath r resolved

/-! ## Execution tracer filter (`tracer.py`, `_should_trace`) -/

/-- Python's `pattern in filename` substring test on strings. -/
def containsSub (pat : PStr) : PStr → Bool
  | [] => pat.isEmpty
  | c :: rest => pat.isPrefixOf (c :: rest) || containsSub pat rest

/-- `_should_trace`: reject the tracer's own module, then apply the
include substring filters (when configured, at least one must match),
then the exclude substring filters (none may match). -/
def _should_trace (includePats excludePats : Option (List PStr)) (filename : PStr) : Bool :=
  if containsSub (String.toList "mpy_coverage") filename then false
  else if includePats.elim false (fun pats => !pats.any fun p => containsSub p filename) then
    false
  else if excludePats.elim false (fun pats => pats.any fun p => containsSub p filename) then
    false
  else true

/-! ## Test attribution (`cli.py`, `_extract_test_name`) -/

/-- POSIX `os.path.basename` (modelled from the Python stdlib): the
part after the last `'/'`. -/
def basenameP (p : PStr) : PStr := (p.reverse.takeWhile (· ≠ '/')).reverse

/-- Python `str.removesuffix`. -/
def removeSuffixP (l suf : PStr) : PStr :=
  if suf.isSuffixOf l then l.take (l.length - suf.length) else l

/-- `_extract_test_name`: the run label of one stored capture.  It is
`data["_metadata"]["test_script"]` when that key exists, else the
storage filename with a `"YYYYMMDD_HHMMSS_"` prefix (recognised by
length and underscore positions) and the `".json"` suffix stripped. -/
def _extract_test_name (jsonPath : PStr) (data : CovData) : String :=
  let meta := data.metadata.getD []
  match lookupA meta "test_script" with
  | some v => v
  | none =>
    let b := basenameP jsonPath
    if 21 < b.length ∧ b.get? 8 = some '_' ∧ b.get? 15 = some '_' then
      String.mk (removeSuffixP (b.drop 16) (String.toList ".json"))
    else
      String.mk (removeSuffixP b (String.toList ".json"))

/-! ## Tracer lifecycle (`tracer.py`, `start` / `stop` / `get_data`)

The module-level mutable tracer state, as one record.  Per-file sets
are duplicate-free lists as in the merge engine. -/

/-- Lexicographic order on arcs, matching Python's `sorted` on
2-element lists. -/
def arcLe (a b : Int × Int) : Prop := a.1 < b.1 ∨ (a.1 = b.1 ∧ a.2 ≤ b.2)

instance : DecidableRel arcLe := fun a b => by unfold arcLe; infer_instance

/-- The tracer module's global state: `_executed`, `_executable`,
`_arcs`, `_last_line_stack`, `_seen_codes`, the filter/flag
configuration, and whether the `sys.settrace` hook is installed. -/
structure TracerState where
  executed : List (String × List Int)
  executable : List (String × List Int)
  arcs : List (String × List (Int × Int))
  lastLineStack : List (String × Int)
  seenCodes : List Nat
  includePats : Option (List PStr)
  excludePats : Option (List PStr)
  collectExecutable : Bool
  collectArcs : Bool
  testScript : Option String
  traceHook : Bool
deriving DecidableEq

/-- `stop()`: `sys.settrace(None)` — removes the hook and touches
nothing else. -/
def stop (s : TracerState) : TracerState := { s with traceHook := false }

/-- `start(...)`: clears every accumulator, stores the configuration
and installs the hook, whatever the previous state was. -/
def start (_s : TracerState) (incP excP : Option (List PStr)) (ce ca : Bool)
    (ts : Option String) : TracerState :=
  { executed := [], executable := [], arcs := [], lastLineStack := [], seenCodes := [],
    includePats := incP, excludePats := excP, collectExecutable := ce, collectArcs := ca,
    testScript := ts, traceHook := true }

/-- `get_data()`: serialize the accumulated state into the canonical
capture record — sorted line lists per file, `executable`/`arcs` keys
only when the corresponding flag is set, `_metadata.test_script` when a
test script name was configured.  (`export_json` writes exactly this
record.)  It reads none of `lastLineStack`, `seenCodes` or the
hook flag. -/
def get_data (s : TracerState) : CovData :=
  { executed := s.executed.map (fun p => (p.1, p.2.insertionSort (· ≤ ·))),
    executable :=
      if s.collectExecutable then
        some (s.executable.map (fun p => (p.1, p.2.insertionSort (· ≤ ·))))
      else none,
    arcs :=
      if s.collectArcs then some (s.arcs.map (fun p => (p.1, p.2.insertionSort arcLe)))
      else none,
    metadata := s.testScript.map (fun t => [("test_script", t)]) }

/-! ## Bytecode line-table decoder (`mpy_analysis.py`,
`_extract_lines_from_raw_code`)

One compiled unit (`RawCode`): its line-info table, already decoded
into `(bytecodeSizeDelta, lineDelta)` pairs by `decode_lineinfo` (the
vendored mpy-tool helper returns non-negative integers), and its
nested child units. -/

/-- A compiled unit with its decoded line-info entries and children. -/
inductive RawCode where
  | node (lineInfo : List (Nat × Nat)) (children : List RawCode)

/-- The `while line_info:` loop: the running source line starts at the
caller-supplied value, each entry adds its line delta, and the
resulting line joins the accumulated set when `bc_increment > 0 or
line_increment > 0` and the line is positive. -/
def walkAux : Nat → List (Nat × Nat) → Finset Nat → Finset Nat
  | _, [], lines => lines
  | sourceLine, (bc, li) :: rest, lines =>
    walkAux (sourceLine + li) rest
      (if (0 < bc ∨ 0 < li) ∧ 0 < sourceLine + li then insert (sourceLine + li) lines
       else lines)

mutual
/-- `_extract_lines_from_raw_code`: walk the unit's own table starting
at source line 1, then recurse into every child, accumulating into the
same set (the Python code mutates one shared `lines` set). -/
def extractAux : RawCode → Finset Nat → Finset Nat
  | .node info cs, lines => extractListAux cs (walkAux 1 info lines)
/-- The `for child in rc.children` recursion. -/
def extractListAux : List RawCode → Finset Nat → Finset Nat
  | [], lines => lines
  | c :: cs, lines => extractListAux cs (extractAux c lines)
end

/-- The decoded per-file line set of one compiled unit. -/
def _extract_lines_from_raw_code (rc : RawCode) : Finset Nat := extractAux rc ∅

/-- Declarative restatement of the decoder algorithm, following the
specification's words: the running line starts at the given value, each
entry adds its delta, the line is recorded when either delta is nonzero
and the line is positive. -/
def specWalk : Nat → List (Nat × Nat) → Finset Nat
  | _, [] => ∅
  | line, (bc, li) :: rest =>
    (if (bc ≠ 0 ∨ li ≠ 0) ∧ 0 < line + li then {line + li} else ∅) ∪ specWalk (line + li) rest

mutual
/-- Declarative restatement of the whole decoder: the unit's own lines
(starting at 1) unioned with every nested unit's lines. -/
def specExtract : RawCode → Finset Nat
  | .node info cs => specWalk 1 info ∪ specExtractL cs
/-- Union over the children. -/
def specExtractL : List RawCode → Finset Nat
  | [] => ∅
  | c :: cs => specExtract c ∪ specExtractL cs
end

/-! ## Declaration-line compensation (`mpy_analysis.py`,
`get_executable_lines`)

The AST patch-up step: `ast.walk` over the parsed source adds
`node.lineno` for every `FunctionDef`/`AsyncFunctionDef`/`ClassDef`. -/

/-- The node kinds the patch-up loop distinguishes. -/
inductive AstKind where
  | functionDef
  | asyncFunctionDef
  | classDef
  | otherNode
deriving DecidableEq

/-- A parsed AST node: kind, declaration line, children. -/
inductive AstNode where
  | node (kind : AstKind) (lineno : Nat) (children : List AstNode)

/-- The `isinstance(node, (FunctionDef, AsyncFunctionDef, ClassDef))`
test. -/
def isDefKind : AstKind → Bool
  | .functionDef => true
  | .asyncFunctionDef => true
  | .classDef => true
  | .otherNode => false

mutual
/-- The linenos added by the patch-up loop: every definition node's
declaration line, over the whole tree (`ast.walk`). -/
def defLines : AstNode → Finset Nat
  | .node k l cs => (if isDefKind k then {l} else ∅) ∪ defLinesL cs
/-- Union over child subtrees. -/
def defLinesL : List AstNode → Finset Nat
  | [] => ∅
  | c :: cs => defLines c ∪ defLinesL cs
end

/-- The per-file body of `get_executable_lines`: decode the compiled
unit, then add the declaration lines found by the grammar-level scan.
`tree = none` models the `except` branch around `ast.parse` — a
warning is printed and the decoded set is left as is. -/
def get_executable_lines_file (rc : RawCode) (tree : Option AstNode) : Finset Nat :=
  match tree with
  | some t => _extract_lines_from_raw_code rc ∪ defLines t
  | none => _extract_lines_from_raw_code rc

end MpyCoverage

namespace MpyCoverage

/-! ## Lemmas about the merge accumulator -/

theorem setUpdate_cons (s : List Int) (y : Int) (ys : List Int) :
    setUpdate s (y :: ys) = setUpdate (List.insert y s) ys := rfl

theorem mem_setUpdate {s ls : List Int} {x : Int} :
    x ∈ setUpdate s ls ↔ x ∈ s ∨ x ∈ ls := by
  induction ls generalizing s with
  | nil => simp [setUpdate]
  | cons y ys ih =>
    rw [setUpdate_cons, ih]
    simp only [List.mem_insert_iff, List.mem_cons]
    tauto

theorem nodup_setUpdate {s ls : List Int} (h : s.Nodup) : (setUpdate s ls).Nodup := by
  induction ls generalizing s with
  | nil => exact h
  | cons y ys ih => rw [setUpdate_cons]; exact ih h.insert

theorem setUpdate_of_subset {s ls : List Int} (h : ∀ x ∈ ls, x ∈ s) :
    setUpdate s ls = s := by
  induction ls generalizing s with
  | nil => rfl
  | cons y ys ih =>
    rw [setUpdate_cons, List.insert_of_mem (h y (List.mem_cons_self _ _))]
    exact ih fun x hx => h x (List.mem_cons_of_mem _ hx)

theorem lookupA_updateA_self (m : List (String × List Int)) (f : String) (ls : List Int) :
    lookupA (updateA m f ls) f = some (setUpdate ((lookupA m f).getD []) ls) := by
  induction m with
  | nil => simp [updateA, lookupA]
  | cons p ps ih =>
    obtain ⟨k, v⟩ := p
    by_cases hk : k = f
    · subst hk; simp [updateA, lookupA]
    · simp [updateA, lookupA, hk, ih]

theorem lookupA_updateA_other (m : List (String × List Int)) (f : String) (ls : List Int)
    (g : String) (hg : g ≠ f) : lookupA (updateA m f ls) g = lookupA m g := by
  induction m with
  | nil => simp [updateA, lookupA, Ne.symm hg]
  | cons p ps ih =>
    obtain ⟨k, v⟩ := p
    by_cases hk : k = f
    · subst hk
      simp [updateA, lookupA, Ne.symm hg]
    · simp [updateA, lookupA, hk, ih]

theorem updateA_of_lookup {m : List (String × List Int)} {f : String} {s ls : List Int}
    (h : lookupA m f = some s) (hsub : ∀ x ∈ ls, x ∈ s) : updateA m f ls = m := by
  induction m with
  | nil => simp [lookupA] at h
  | cons p ps ih =>
    obtain ⟨k, v⟩ := p
    by_cases hk : k = f
    · subst hk
      simp [lookupA] at h
      subst h
      simp [updateA, setUpdate_of_subset hsub]
    · simp [lookupA, hk] at h
      simp [updateA, hk, ih h]

theorem lookupA_isSome_iff {α : Type} (m : List (String × α)) (f : String) :
    (lookupA m f).isSome ↔ ∃ p ∈ m, p.1 = f := by
  induction m with
  | nil => simp [lookupA]
  | cons p ps ih =>
    obtain ⟨k, v⟩ := p
    by_cases hk : k = f
    · subst hk; simp [lookupA]
    · simp [lookupA, hk, ih]

theorem lookupA_mem {α : Type} {m : List (String × α)} {f : String} {s : α}
    (h : lookupA m f = some s) : (f, s) ∈ m := by
  induction m with
  | nil => simp [lookupA] at h
  | cons p ps ih =>
    obtain ⟨k, v⟩ := p
    by_cases hk : k = f
    · subst hk
      simp [lookupA] at h
      subst h
      exact List.mem_cons_self _ _
    · simp [lookupA, hk] at h
      exact List.mem_cons_of_mem _ (ih h)

theorem lookupA_of_mem_keysNodup {α : Type} {m : List (String × α)} (hm : keysNodup m)
    {p : String × α} (hp : p ∈ m) : lookupA m p.1 = some p.2 := by
  induction m with
  | nil => simp at hp
  | cons q qs ih =>
    obtain ⟨hq, hnd⟩ : q.1 ∉ qs.map Prod.fst ∧ keysNodup qs := by
      simpa [keysNodup] using hm
    rcases List.mem_cons.mp hp with h | h
    · subst h; simp [lookupA]
    · have hne : q.1 ≠ p.1 := fun he => hq (by rw [he]; exact List.mem_map_of_mem Prod.fst h)
      simp [lookupA, hne, ih hnd h]

theorem keys_updateA (m : List (String × List Int)) (f : String) (ls : List Int) :
    (updateA m f ls).map Prod.fst =
      if ∃ p ∈ m, p.1 = f then m.map Prod.fst else m.map Prod.fst ++ [f] := by
  induction m with
  | nil => simp [updateA]
  | cons p ps ih =>
    obtain ⟨k, v⟩ := p
    by_cases hk : k = f
    · subst hk; simp [updateA]
    · by_cases hex : ∃ p ∈ ps, p.1 = f <;> simp [updateA, hk, hex, ih]

theorem keysNodup_updateA {m : List (String × List Int)} {f : String} {ls : List Int}
    (hm : keysNodup m) : keysNodup (updateA m f ls) := by
  unfold keysNodup
  rw [keys_updateA]
  by_cases hex : ∃ p ∈ m, p.1 = f
  · simpa [hex] using hm
  · simp only [hex, if_false]
    refine List.Nodup.append hm (List.nodup_singleton f) ?_
    intro a ha hb
    rcases List.mem_singleton.mp hb with rfl
    rcases List.mem_map.mp ha with ⟨p, hp, hpa⟩
    exact hex ⟨p, hp, hpa⟩

theorem valuesNodup_updateA {m : List (String × List Int)} {f : String} {ls : List Int}
    (hm : valuesNodup m) : valuesNodup (updateA m f ls) := by
  induction m with
  | nil =>
    intro p hp
    simp [updateA] at hp
    subst hp
    exact nodup_setUpdate List.nodup_nil
  | cons q qs ih =>
    intro p hp
    obtain ⟨k, v⟩ := q
    by_cases hk : k = f
    · subst hk
      rcases List.mem_cons.mp (by simpa [updateA] using hp) with h | h
      · rw [h]
        exact nodup_setUpdate (hm (k, v) (List.mem_cons_self _ _))
      · exact hm p (List.mem_cons_of_mem _ h)
    · rcases List.mem_cons.mp (by simpa [updateA, hk] using hp) with h | h
      · rw [h]
        exact hm (k, v) (List.mem_cons_self _ _)
      · exact ih (fun q hq => hm q (List.mem_cons_of_mem _ hq)) p h

theorem insertRec_cons (m : List (String × List Int)) (p : String × List Int) (r : ExecMap) :
    insertRec m (p :: r) = insertRec (updateA m p.1 p.2) r := rfl

theorem lookupA_insertRec_isSome (m : List (String × List Int)) (r : ExecMap) (f : String) :
    (lookupA (insertRec m r) f).isSome ↔ (lookupA m f).isSome ∨ ∃ p ∈ r, p.1 = f := by
  induction r generalizing m with
  | nil => simp [insertRec]
  | cons p r ih =>
    rw [insertRec_cons, ih]
    by_cases hf : p.1 = f
    · subst hf
      simp [lookupA_updateA_self]
    · rw [lookupA_updateA_other _ _ _ _ (Ne.symm hf)]
      simp only [List.mem_cons]
      constructor
      · rintro (h | ⟨q, hq, hqf⟩)
        · exact Or.inl h
        · exact Or.inr ⟨q, Or.inr hq, hqf⟩
      · rintro (h | ⟨q, hq | hq, hqf⟩)
        · exact Or.inl h
        · exact absurd (hq ▸ hqf) hf
        · exact Or.inr ⟨q, hq, hqf⟩

theorem memLookup_insertRec (m : List (String × List Int)) (r : ExecMap) (f : String) (x : Int) :
    memLookup (insertRec m r) f x ↔ memLookup m f x ∨ ∃ p ∈ r, p.1 = f ∧ x ∈ p.2 := by
  induction r generalizing m with
  | nil => simp [insertRec]
  | cons p r ih =>
    rw [insertRec_cons, ih]
    have hupd : memLookup (updateA m p.1 p.2) f x ↔
        memLookup m f x ∨ (p.1 = f ∧ x ∈ p.2) := by
      by_cases hf : p.1 = f
      · subst hf
        unfold memLookup
        rw [lookupA_updateA_self]
        rcases hm : lookupA m p.1 with _ | t <;> simp [hm, mem_setUpdate]
      · unfold memLookup
        rw [lookupA_updateA_other _ _ _ _ (Ne.symm hf)]
        simp [hf]
    rw [hupd]
    simp only [List.mem_cons]
    constructor
    · rintro ((h | ⟨hf, hx⟩) | ⟨q, hq, hqf, hqx⟩)
      · exact Or.inl h
      · exact Or.inr ⟨p, Or.inl rfl, hf, hx⟩
      · exact Or.inr ⟨q, Or.inr hq, hqf, hqx⟩
    · rintro (h | ⟨q, hq | hq, hqf, hqx⟩)
      · exact Or.inl (Or.inl h)
      · exact Or.inl (Or.inr ⟨hq ▸ hqf, hq ▸ hqx⟩)
      · exact Or.inr ⟨q, hq, hqf, hqx⟩

theorem insertRec_of_superset {m : List (String × List Int)} {r : ExecMap}
    (h : ∀ p ∈ r, ∃ s, lookupA m p.1 = some s ∧ ∀ x ∈ p.2, x ∈ s) : insertRec m r = m := by
  induction r with
  | nil => rfl
  | cons p r ih =>
    obtain ⟨s, hs, hsub⟩ := h p (List.mem_cons_self _ _)
    rw [insertRec_cons, updateA_of_lookup hs hsub]
    exact ih fun q hq => h q (List.mem_cons_of_mem _ hq)

theorem keysNodup_insertRec {m : List (String × List Int)} (r : ExecMap)
    (hm : keysNodup m) : keysNodup (insertRec m r) := by
  induction r generalizing m with
  | nil => exact hm
  | cons p r ih => exact insertRec_cons m p r ▸ ih (keysNodup_updateA hm)

theorem valuesNodup_insertRec {m : List (String × List Int)} (r : ExecMap)
    (hm : valuesNodup m) : valuesNodup (insertRec m r) := by
  induction r generalizing m with
  | nil => exact hm
  | cons p r ih => exact insertRec_cons m p r ▸ ih (valuesNodup_updateA hm)

theorem mergeAux_cons (m : List (String × List Int)) (r : ExecMap) (rs : List ExecMap) :
    mergeAux m (r :: rs) = mergeAux (insertRec m r) rs := rfl

theorem lookupA_mergeAux_isSome (m : List (String × List Int)) (rs : List ExecMap) (f : String) :
    (lookupA (mergeAux m rs) f).isSome ↔
      (lookupA m f).isSome ∨ ∃ r ∈ rs, ∃ p ∈ r, p.1 = f := by
  induction rs generalizing m with
  | nil => simp [mergeAux]
  | cons r rs ih =>
    rw [mergeAux_cons, ih, lookupA_insertRec_isSome]
    simp only [List.mem_cons]
    constructor
    · rintro ((h | h) | ⟨r', hr', hp⟩)
      · exact Or.inl h
      · exact Or.inr ⟨r, Or.inl rfl, h⟩
      · exact Or.inr ⟨r', Or.inr hr', hp⟩
    · rintro (h | ⟨r', hr' | hr', hp⟩)
      · exact Or.inl (Or.inl h)
      · exact Or.inl (Or.inr (hr' ▸ hp))
      · exact Or.inr ⟨r', hr', hp⟩

theorem memLookup_mergeAux (m : List (String × List Int)) (rs : List ExecMap) (f : String)
    (x : Int) : memLookup (mergeAux m rs) f x ↔
      memLookup m f x ∨ ∃ r ∈ rs, ∃ p ∈ r, p.1 = f ∧ x ∈ p.2 := by
  induction rs generalizing m with
  | nil => simp [mergeAux]
  | cons r rs ih =>
    rw [mergeAux_cons, ih, memLookup_insertRec]
    simp only [List.mem_cons]
    constructor
    · rintro ((h | h) | ⟨r', hr', hp⟩)
      · exact Or.inl h
      · exact Or.inr ⟨r, Or.inl rfl, h⟩
      · exact Or.inr ⟨r', Or.inr hr', hp⟩
    · rintro (h | ⟨r', hr' | hr', hp⟩)
      · exact Or.inl (Or.inl h)
      · exact Or.inl (Or.inr (hr' ▸ hp))
      · exact Or.inr ⟨r', hr', hp⟩

theorem keysNodup_mergeAux {m : List (String × List Int)} (rs : List ExecMap)
    (hm : keysNodup m) : keysNodup (mergeAux m rs) := by
  induction rs generalizing m with
  | nil => exact hm
  | cons r rs ih => exact mergeAux_cons m r rs ▸ ih (keysNodup_insertRec r hm)

theorem valuesNodup_mergeAux {m : List (String × List Int)} (rs : List ExecMap)
    (hm : valuesNodup m) : valuesNodup (mergeAux m rs) := by
  induction rs generalizing m with
  | nil => exact hm
  | cons r rs ih => exact mergeAux_cons m r rs ▸ ih (valuesNodup_insertRec r hm)

theorem lookupA_finalize : ∀ (m : List (String × List Int)) (f : String),
    lookupA (finalize m) f = (lookupA m f).map (List.insertionSort (· ≤ ·))
  | [], f => by simp [finalize, lookupA]
  | p :: ps, f => by
    by_cases hp : p.1 = f
    · simp [finalize, lookupA, hp]
    · simpa [finalize, lookupA, hp] using lookupA_finalize ps f

theorem keysNodup_nil : keysNodup ([] : List (String × List Int)) := by
  simp [keysNodup]

theorem lookup_mergeRecords (rs : List CovData) (f : String) :
    lookupA (mergeRecords rs).executed f =
      (lookupA (mergeAux [] (rs.map (fun c => c.executed))) f).map
        (List.insertionSort (· ≤ ·)) :=
  lookupA_finalize _ _

theorem mentions_map_iff (rs : List CovData) (f : String) :
    (∃ r ∈ rs.map (fun c => c.executed), ∃ p ∈ r, p.1 = f) ↔ mentions rs f := by
  constructor
  · rintro ⟨r, hr, hp⟩
    rcases List.mem_map.mp hr with ⟨c, hc, rfl⟩
    exact ⟨c, hc, hp⟩
  · rintro ⟨c, hc, hp⟩
    exact ⟨c.executed, List.mem_map_of_mem _ hc, hp⟩

theorem execLine_map_iff (rs : List CovData) (f : String) (x : Int) :
    (∃ r ∈ rs.map (fun c => c.executed), ∃ p ∈ r, p.1 = f ∧ x ∈ p.2) ↔ execLine rs f x := by
  constructor
  · rintro ⟨r, hr, hp⟩
    rcases List.mem_map.mp hr with ⟨c, hc, rfl⟩
    exact ⟨c, hc, hp⟩
  · rintro ⟨c, hc, hp⟩
    exact ⟨c.executed, List.mem_map_of_mem _ hc, hp⟩

theorem isSome_lookup_mergeRecords (rs : List CovData) (f : String) :
    (lookupA (mergeRecords rs).executed f).isSome ↔ mentions rs f := by
  have h := lookupA_mergeAux_isSome [] (rs.map (fun c => c.executed)) f
  rw [show lookupA ([] : List (String × List Int)) f = none from rfl] at h
  simp only [Option.isSome_none, Bool.false_eq_true, false_or] at h
  rw [mentions_map_iff] at h
  rw [lookup_mergeRecords]
  rcases hx : lookupA (mergeAux [] (rs.map (fun c => c.executed))) f with _ | s <;>
    rw [hx] at h ⊢ <;> simpa using h

theorem memLookup_some_iff {m : List (String × List Int)} {f : String} {s : List Int}
    (h : lookupA m f = some s) (x : Int) : memLookup m f x ↔ x ∈ s := by
  unfold memLookup
  rw [h]
  constructor
  · rintro ⟨t, ht, hx⟩
    cases Option.some_injective _ ht
    exact hx
  · intro hx
    exact ⟨s, rfl, hx⟩

theorem lookup_mergeRecords_spec {rs : List CovData} {f : String} {out : List Int}
    (h : lookupA (mergeRecords rs).executed f = some out) :
    out.Sorted (· < ·) ∧ ∀ x, x ∈ out ↔ execLine rs f x := by
  rw [lookup_mergeRecords] at h
  rcases hx : lookupA (mergeAux [] (rs.map (fun c => c.executed))) f with _ | s
  · rw [hx] at h
    simp at h
  · rw [hx] at h
    simp only [Option.map_some'] at h
    obtain rfl : out = List.insertionSort (· ≤ ·) s := (Option.some_injective _ h).symm
    have hnd : s.Nodup :=
      valuesNodup_mergeAux _ (fun p hp => absurd hp (List.not_mem_nil p)) (f, s)
        (lookupA_mem hx)
    have hperm := List.perm_insertionSort (· ≤ ·) s
    have hsorted : (List.insertionSort (· ≤ ·) s).Sorted (· ≤ ·) :=
      List.sorted_insertionSort _ s
    refine ⟨hsorted.lt_of_le (hperm.nodup_iff.mpr hnd), fun x => ?_⟩
    rw [hperm.mem_iff, ← memLookup_some_iff hx x]
    have hm := memLookup_mergeAux [] (rs.map (fun c => c.executed)) f x
    have hbase : ¬ memLookup ([] : List (String × List Int)) f x := by
      rintro ⟨t, ht, -⟩
      cases ht
    rw [hm, execLine_map_iff]
    simp [hbase]

theorem mem_executed_mergeRecords_iff (xs : List CovData) (f : String) (x : Int) :
    (∃ p ∈ (mergeRecords xs).executed, p.1 = f ∧ x ∈ p.2) ↔ execLine xs f x := by
  constructor
  · rintro ⟨p, hp, hpf, hpx⟩
    rcases List.mem_map.mp hp with ⟨q, hq, rfl⟩
    have hq1 : lookupA (mergeAux [] (xs.map (fun c => c.executed))) q.1 = some q.2 :=
      lookupA_of_mem_keysNodup (keysNodup_mergeAux _ keysNodup_nil) hq
    have hx : x ∈ q.2 := (List.perm_insertionSort (· ≤ ·) q.2).mem_iff.mp hpx
    have hmem : memLookup (mergeAux [] (xs.map (fun c => c.executed))) f x := by
      rw [← hpf]
      exact ⟨q.2, hq1, hx⟩
    have hm := (memLookup_mergeAux [] (xs.map (fun c => c.executed)) f x).mp hmem
    have hbase : ¬ memLookup ([] : List (String × List Int)) f x := by
      rintro ⟨t, ht, -⟩
      cases ht
    rw [execLine_map_iff] at hm
    tauto
  · intro hex
    have hmem : memLookup (mergeAux [] (xs.map (fun c => c.executed))) f x := by
      rw [memLookup_mergeAux, execLine_map_iff]
      exact Or.inr hex
    obtain ⟨s, hs, hx⟩ := hmem
    refine ⟨(f, List.insertionSort (· ≤ ·) s), ?_, rfl, ?_⟩
    · exact List.mem_map_of_mem _ (lookupA_mem hs)
    · exact (List.perm_insertionSort (· ≤ ·) s).mem_iff.mpr hx

theorem key_executed_mergeRecords_iff (xs : List CovData) (f : String) :
    (∃ p ∈ (mergeRecords xs).executed, p.1 = f) ↔ mentions xs f := by
  constructor
  · rintro ⟨p, hp, hpf⟩
    rcases List.mem_map.mp hp with ⟨q, hq, rfl⟩
    have hq1 : lookupA (mergeAux [] (xs.map (fun c => c.executed))) q.1 = some q.2 :=
      lookupA_of_mem_keysNodup (keysNodup_mergeAux _ keysNodup_nil) hq
    have hsome : (lookupA (mergeAux [] (xs.map (fun c => c.executed))) f).isSome := by
      rw [← hpf, hq1]
      rfl
    have hm := (lookupA_mergeAux_isSome [] (xs.map (fun c => c.executed)) f).mp hsome
    rw [mentions_map_iff] at hm
    rcases hm with hm | hm
    · cases hm
    · exact hm
  · intro hmen
    have hsome : (lookupA (mergeAux [] (xs.map (fun c => c.executed))) f).isSome := by
      rw [lookupA_mergeAux_isSome, mentions_map_iff]
      exact Or.inr hmen
    obtain ⟨s, hs⟩ := Option.isSome_iff_exists.mp hsome
    exact ⟨(f, List.insertionSort (· ≤ ·) s), List.mem_map_of_mem _ (lookupA_mem hs), rfl⟩

theorem lookup_mergeRecords_eq_of_equiv {rs rs' : List CovData}
    (hm : ∀ f, mentions rs f ↔ mentions rs' f)
    (he : ∀ f x, execLine rs f x ↔ execLine rs' f x) (f : String) :
    lookupA (mergeRecords rs).executed f = lookupA (mergeRecords rs').executed f := by
  have hiso : (lookupA (mergeRecords rs).executed f).isSome ↔
      (lookupA (mergeRecords rs').executed f).isSome := by
    rw [isSome_lookup_mergeRecords, isSome_lookup_mergeRecords]
    exact hm f
  rcases h1 : lookupA (mergeRecords rs).executed f with _ | out
  · rcases h2 : lookupA (mergeRecords rs').executed f with _ | out'
    · rfl
    · rw [h1, h2] at hiso
      simp at hiso
  · rcases h2 : lookupA (mergeRecords rs').executed f with _ | out'
    · rw [h1, h2] at hiso
      simp at hiso
    · obtain ⟨hs1, hm1⟩ := lookup_mergeRecords_spec h1
      obtain ⟨hs2, hm2⟩ := lookup_mergeRecords_spec h2
      have hmem : ∀ x, x ∈ out ↔ x ∈ out' := fun x => by
        rw [hm1 x, hm2 x, he f x]
      have hperm : out.Perm out' :=
        (List.perm_ext_iff_of_nodup hs1.nodup hs2.nodup).mpr hmem
      haveI : IsAntisymm Int (· < ·) := ⟨fun a b h h' => absurd h (asymm h')⟩
      rw [List.eq_of_perm_of_sorted hperm hs1 hs2]

theorem mergeGo_map_ok : ∀ (rs : List CovData) (acc : List (String × List Int)),
    mergeGo acc (rs.map .ok) =
      .ok { executed := finalize (mergeAux acc (rs.map (fun c => c.executed))) }
  | [], _ => rfl
  | r :: rs, acc => mergeGo_map_ok rs (insertRec acc r.executed)

/-- On a batch of records that all load successfully, `merge_coverage_data`
returns exactly the pure merge of the parsed records. -/
theorem mergeCoverageData_ok (rs : List CovData) :
    mergeCoverageData (rs.map .ok) = .ok (mergeRecords rs) :=
  mergeGo_map_ok rs []

theorem insertRec_insertRec_self (e : ExecMap) :
    insertRec (insertRec [] e) e = insertRec [] e := by
  apply insertRec_of_superset
  intro p hp
  have hsome : (lookupA (insertRec [] e) p.1).isSome := by
    rw [lookupA_insertRec_isSome]
    exact Or.inr ⟨p, hp, rfl⟩
  obtain ⟨s, hs⟩ := Option.isSome_iff_exists.mp hsome
  refine ⟨s, hs, fun x hx => ?_⟩
  have hmem : memLookup (insertRec [] e) p.1 x := by
    rw [memLookup_insertRec]
    exact Or.inr ⟨p, hp, rfl, hx⟩
  obtain ⟨t, ht, hxt⟩ := hmem
  rw [hs] at ht
  cases Option.some_injective _ ht
  exact hxt

theorem mergeRecords_idem (r : CovData) : mergeRecords [r, r] = mergeRecords [r] := by
  unfold mergeRecords
  rw [show mergeAux [] ([r, r].map (fun c => c.executed)) =
        insertRec (insertRec [] r.executed) r.executed from rfl,
      show mergeAux [] ([r].map (fun c => c.executed)) = insertRec [] r.executed from rfl,
      insertRec_insertRec_self]

/-! ## Claim theorems for the merge engine -/

/-- C1: for every list of capture records, the merge output maps a file
`f` to an entry exactly when some record mentions `f`, and that entry is
the union of `f`'s executed-line sets across all input records,
serialized as a sorted duplicate-free list. -/
theorem merge_union_law :
    ∀ (rs : List CovData) (f : String),
      ((lookupA (mergeRecords rs).executed f).isSome ↔ mentions rs f) ∧
      ∀ out : List Int, lookupA (mergeRecords rs).executed f = some out →
        out.Sorted (· < ·) ∧ ∀ x : Int, x ∈ out ↔ execLine rs f x :=
  fun rs f => ⟨isSome_lookup_mergeRecords rs f, fun _ h => lookup_mergeRecords_spec h⟩

/-- Witness for C1 at the spec's own example: merging `{1,3,5}` with
`{2,3,4}` of one file yields the sorted union `[1,2,3,4,5]`. -/
theorem merge_union_law_witness :
    (2 : Int) ∈ ([1, 2, 3, 4, 5] : List Int) ↔
      execLine [{ executed := [("f", [1, 3, 5])] }, { executed := [("f", [2, 3, 4])] }] "f" 2 :=
  ((merge_union_law [{ executed := [("f", [1, 3, 5])] }, { executed := [("f", [2, 3, 4])] }]
      "f").2 [1, 2, 3, 4, 5] (by decide)).2 2

/-- C2: the merge output never carries an `arcs` (nor `executable`) key —
arc data from the inputs is dropped, not unioned; evaluated concretely on
a record that does carry arcs. -/
theorem merge_produces_no_arcs :
    (∀ rs : List CovData, (mergeRecords rs).arcs = none ∧ (mergeRecords rs).executable = none) ∧
      mergeRecords [{ executed := [("f", [1, 2])], arcs := some [("f", [(1, 2)])] }] =
        { executed := [("f", [1, 2])] } :=
  ⟨fun _ => ⟨rfl, rfl⟩, by decide⟩

/-- C3 (amended): the merge is commutative and associative at the
per-file level and idempotent on whole records; (the serialized key
order, by contrast, follows first appearance in the input list, so
byte-identical output is only guaranteed for identical input
sequences — see the counterexample). -/
theorem merge_algebraic_properties :
    (∀ rs rs' : List CovData, rs.Perm rs' → ∀ f : String,
        lookupA (mergeRecords rs).executed f = lookupA (mergeRecords rs').executed f) ∧
    (∀ (xs ys : List CovData) (f : String),
        lookupA (mergeRecords (mergeRecords xs :: ys)).executed f =
          lookupA (mergeRecords (xs ++ ys)).executed f) ∧
    (∀ r : CovData, mergeRecords [r, r] = mergeRecords [r]) := by
  refine ⟨?_, ?_, mergeRecords_idem⟩
  · intro rs rs' hp f
    apply lookup_mergeRecords_eq_of_equiv
    · intro g
      exact ⟨fun ⟨r, hr, h⟩ => ⟨r, hp.mem_iff.mp hr, h⟩,
        fun ⟨r, hr, h⟩ => ⟨r, hp.mem_iff.mpr hr, h⟩⟩
    · intro g x
      exact ⟨fun ⟨r, hr, h⟩ => ⟨r, hp.mem_iff.mp hr, h⟩,
        fun ⟨r, hr, h⟩ => ⟨r, hp.mem_iff.mpr hr, h⟩⟩
  · intro xs ys f
    apply lookup_mergeRecords_eq_of_equiv
    · intro g
      constructor
      · rintro ⟨r, hr, hp⟩
        rcases List.mem_cons.mp hr with rfl | hr
        · obtain ⟨c, hc, hcp⟩ := (key_executed_mergeRecords_iff xs g).mp hp
          exact ⟨c, List.mem_append_left _ hc, hcp⟩
        · exact ⟨r, List.mem_append_right _ hr, hp⟩
      · rintro ⟨r, hr, hp⟩
        rcases List.mem_append.mp hr with hr | hr
        · exact ⟨mergeRecords xs, List.mem_cons_self _ _,
            (key_executed_mergeRecords_iff xs g).mpr ⟨r, hr, hp⟩⟩
        · exact ⟨r, List.mem_cons_of_mem _ hr, hp⟩
    · intro g x
      constructor
      · rintro ⟨r, hr, hp⟩
        rcases List.mem_cons.mp hr with rfl | hr
        · obtain ⟨c, hc, hcp⟩ := (mem_executed_mergeRecords_iff xs g x).mp hp
          exact ⟨c, List.mem_append_left _ hc, hcp⟩
        · exact ⟨r, List.mem_append_right _ hr, hp⟩
      · rintro ⟨r, hr, hp⟩
        rcases List.mem_append.mp hr with hr | hr
        · exact ⟨mergeRecords xs, List.mem_cons_self _ _,
            (mem_executed_mergeRecords_iff xs g x).mpr ⟨r, hr, hp⟩⟩
        · exact ⟨r, List.mem_cons_of_mem _ hr, hp⟩

/-- Witness for C3: a concrete permutation (a swap of two records)
leaves the per-file lookup unchanged. -/
theorem merge_algebraic_properties_witness :
    lookupA (mergeRecords [{ executed := [("a", [1]) ] },
        { executed := [("b", [2])] }]).executed "a" =
      lookupA (mergeRecords [{ executed := [("b", [2]) ] },
        { executed := [("a", [1])] }]).executed "a" :=
  merge_algebraic_properties.1 _ _ (List.Perm.swap _ _ _) "a"

/-- Counterexample for C3 as stated: two single-file records merged in
the two possible orders give different serialized outputs (the file keys
appear in first-appearance order), so an identical input multiset does
not guarantee byte-identical serialized output. -/
theorem merge_not_byte_deterministic :
    mergeRecords [{ executed := [("a", [1])] }, { executed := [("b", [2])] }] ≠
      mergeRecords [{ executed := [("b", [2])] }, { executed := [("a", [1])] }] := by
  decide

/-- Counterexample for C4: a malformed second record makes the merge
return that record's decode error instead of the merge of the remaining
well-formed records — the merge aborts rather than warn-and-continue. -/
theorem merge_malformed_aborts_cex :
    mergeCoverageData [.ok { executed := [("a", [1])] }, .error "capture2 malformed"] =
      .error "capture2 malformed" ∧
    mergeCoverageData [.ok { executed := [("a", [1])] }] =
      .ok (mergeRecords [{ executed := [("a", [1])] }]) ∧
    mergeCoverageData [.ok { executed := [("a", [1])] }, .error "capture2 malformed"] ≠
      mergeCoverageData [.ok { executed := [("a", [1])] }] := by
  refine ⟨rfl, rfl, fun h => ?_⟩
  rw [show mergeCoverageData [.ok { executed := [("a", [1])] }, .error "capture2 malformed"] =
        Except.error "capture2 malformed" from rfl,
      show mergeCoverageData [.ok { executed := [("a", [1])] }] =
        Except.ok (mergeRecords [{ executed := [("a", [1])] }]) from rfl] at h
  exact Except.noConfusion h

/-- C4 (amended): if any stored record fails to parse, the merge raises
that record's decode error and aborts — no warning, no exclusion, no
merging of the remaining records. -/
theorem merge_malformed_aborts :
    ∀ (pre : List CovData) (e : String) (post : List (Except String CovData)),
      mergeCoverageData (pre.map .ok ++ .error e :: post) = .error e := by
  intro pre e post
  have h : ∀ (l : List CovData) (acc : List (String × List Int)),
      mergeGo acc (l.map .ok ++ .error e :: post) = .error e := by
    intro l
    induction l with
    | nil => intro acc; rfl
    | cons d l ih => intro acc; exact ih _
  exact h pre []

/-! ## Decoder lemmas (C5) -/

theorem walkAux_eq : ∀ (entries : List (Nat × Nat)) (line : Nat) (acc : Finset ℕ),
    walkAux line entries acc = acc ∪ specWalk line entries
  | [], line, acc => by simp [walkAux, specWalk]
  | (bc, li) :: rest, line, acc => by
    rw [show walkAux line ((bc, li) :: rest) acc =
          walkAux (line + li) rest
            (if (0 < bc ∨ 0 < li) ∧ 0 < line + li then insert (line + li) acc else acc)
          from rfl,
        walkAux_eq rest (line + li) _,
        show specWalk line ((bc, li) :: rest) =
          (if (bc ≠ 0 ∨ li ≠ 0) ∧ 0 < line + li then {line + li} else ∅) ∪
            specWalk (line + li) rest from rfl]
    have hcond : ((bc ≠ 0 ∨ li ≠ 0) ∧ 0 < line + li) ↔ ((0 < bc ∨ 0 < li) ∧ 0 < line + li) := by
      simp [Nat.pos_iff_ne_zero]
    by_cases hc : (0 < bc ∨ 0 < li) ∧ 0 < line + li
    · rw [if_pos hc, if_pos (hcond.mpr hc), Finset.insert_union, ← Finset.insert_eq,
        Finset.union_insert]
    · rw [if_neg hc, if_neg (fun h => hc (hcond.mp h)), Finset.empty_union]

mutual
theorem extractAux_eq : ∀ (rc : RawCode) (acc : Finset ℕ),
    extractAux rc acc = acc ∪ specExtract rc
  | .node info cs, acc => by
    rw [show extractAux (.node info cs) acc = extractListAux cs (walkAux 1 info acc) from rfl,
        extractListAux_eq cs _, walkAux_eq info 1 acc,
        show specExtract (.node info cs) = specWalk 1 info ∪ specExtractL cs from rfl,
        Finset.union_assoc]
theorem extractListAux_eq : ∀ (cs : List RawCode) (acc : Finset ℕ),
    extractListAux cs acc = acc ∪ specExtractL cs
  | [], acc => by simp [extractListAux, specExtractL]
  | c :: cs, acc => by
    rw [show extractListAux (c :: cs) acc = extractListAux cs (extractAux c acc) from rfl,
        extractListAux_eq cs _, extractAux_eq c acc,
        show specExtractL (c :: cs) = specExtract c ∪ specExtractL cs from rfl,
        Finset.union_assoc]
end

/-- C5: the imperative line-table decoder computes exactly the
declaratively specified set — running line starting at 1, each entry
adding its line delta, the resulting line recorded whenever either
delta is nonzero (the code's `> 0` on the non-negative decoded deltas)
and the line is positive, recursing through every nested unit into one
per-file set. -/
theorem decoder_matches_spec :
    ∀ rc : RawCode, _extract_lines_from_raw_code rc = specExtract rc :=
  fun rc => (extractAux_eq rc ∅).trans (Finset.empty_union _)

/-- C6: with the grammar-level scan available, the compensated decoder
output is the decoded set unioned with the declaration lines, hence a
superset of every definition's declaration line. -/
theorem compensation_superset :
    ∀ (rc : RawCode) (t : AstNode),
      defLines t ⊆ get_executable_lines_file rc (some t) ∧
        get_executable_lines_file rc (some t) = _extract_lines_from_raw_code rc ∪ defLines t :=
  fun _ _ => ⟨Finset.subset_union_right, rfl⟩

/-! ## Path-mapper lemmas (C7) -/

theorem split_encode : ∀ (dev host : PStr), '=' ∉ dev →
    splitDevice (dev ++ '=' :: host) = dev ∧ splitHost (dev ++ '=' :: host) = host
  | [], host, _ => by constructor <;> simp [splitDevice, splitHost]
  | c :: cs, host, hdev => by
    have hc : c ≠ '=' := fun h => hdev (by rw [← h]; exact List.mem_cons_self c cs)
    have hcs : '=' ∉ cs := fun h => hdev (List.mem_cons_of_mem _ h)
    obtain ⟨ih1, ih2⟩ := split_encode cs host hcs
    constructor
    · simpa [splitDevice, hc] using ih1
    · simpa [splitHost, hc] using ih2

/-- C7: (1) the first mapping rule containing `'='` whose device
component is a string prefix of the path rewrites it to the host
component plus the remainder — later rules, however broad, are not
consulted; (2) a path matching no rule passes through unchanged;
(3) with a source root configured, a relative mapped path is joined
under the root; (4) a `"device=host"` rule string decomposes into its
device and host components. -/
theorem path_map_spec :
    (∀ (pre post : List PStr) (rule path : PStr),
        (∀ m ∈ pre, ¬('=' ∈ m ∧ (splitDevice m).isPrefixOf path = true)) →
        '=' ∈ rule → (splitDevice rule).isPrefixOf path = true →
        resolveMapping (pre ++ rule :: post) path =
          splitHost rule ++ path.drop (splitDevice rule).length) ∧
    (∀ (maps : List PStr) (path : PStr),
        (∀ m ∈ maps, ¬('=' ∈ m ∧ (splitDevice m).isPrefixOf path = true)) →
        resolveMapping maps path = path) ∧
    (∀ (pathMaps : List PStr) (r path : PStr), r ≠ [] →
        isabs (resolveMapping pathMaps path) = false →
        resolveSourcePath pathMaps (some r) path =
          joinPath r (resolveMapping pathMaps path)) ∧
    (∀ (dev host : PStr), '=' ∉ dev →
        splitDevice (dev ++ '=' :: host) = dev ∧ splitHost (dev ++ '=' :: host) = host) := by
  refine ⟨?_, ?_, ?_, split_encode⟩
  · intro pre
    induction pre with
    | nil =>
      intro post rule path _ hin hpref
      simp [resolveMapping, hin, hpref]
    | cons m pre ih =>
      intro post rule path hpre hin hpref
      have hm := hpre m (List.mem_cons_self _ _)
      by_cases h1 : '=' ∈ m
      · have h2 : ¬((splitDevice m).isPrefixOf path = true) := fun hp => hm ⟨h1, hp⟩
        simp only [List.cons_append, resolveMapping, if_pos h1,
          Bool.not_eq_true] at h2 ⊢
        rw [if_neg (by simp [h2])]
        exact ih post rule path (fun q hq => hpre q (List.mem_cons_of_mem _ hq)) hin hpref
      · simp only [List.cons_append, resolveMapping, if_neg h1]
        exact ih post rule path (fun q hq => hpre q (List.mem_cons_of_mem _ hq)) hin hpref
  · intro maps
    induction maps with
    | nil => intro path _; rfl
    | cons m maps ih =>
      intro path hall
      have hm := hall m (List.mem_cons_self _ _)
      by_cases h1 : '=' ∈ m
      · have h2 : ¬((splitDevice m).isPrefixOf path = true) := fun hp => hm ⟨h1, hp⟩
        simp only [resolveMapping, if_pos h1]
        rw [if_neg (by simp [h2])]
        exact ih path (fun q hq => hall q (List.mem_cons_of_mem _ hq))
      · simp only [resolveMapping, if_neg h1]
        exact ih path (fun q hq => hall q (List.mem_cons_of_mem _ hq))
  · intro pathMaps r path hr habs
    simp [resolveSourcePath, hr, habs]

/-- Witness for C7 at the spec's own precedence example: with rules
`/dev/a=/host/a` then the broader `/dev=/host/x`, the path
`/dev/a/mod.py` maps to `/host/a/mod.py`. -/
theorem path_map_spec_witness :
    resolveMapping [String.toList "/dev/a=/host/a", String.toList "/dev=/host/x"]
        (String.toList "/dev/a/mod.py") = String.toList "/host/a/mod.py" :=
  (path_map_spec.1 [] [String.toList "/dev=/host/x"] (String.toList "/dev/a=/host/a")
      (String.toList "/dev/a/mod.py") (by simp) (by decide) (by decide)).trans (by decide)

/-! ## Tracer filter lemmas (C8) -/

theorem containsSub_iff : ∀ (pat s : PStr), containsSub pat s = true ↔ pat <:+: s := by
  intro pat s
  induction s with
  | nil => simp [containsSub, List.infix_nil, List.isEmpty_iff]
  | cons c rest ih =>
    simp [containsSub, Bool.or_eq_true, ih, List.isPrefixOf_iff_prefix, List.infix_cons_iff]

/-- C8: the tracer records line events for a file iff the filename does
not contain the tracer's own module name `mpy_coverage`, and either no
include patterns are configured or some include pattern occurs as a
plain substring, and no exclude pattern occurs as a substring; in
particular `include=["foo"]` accepts both `bar_foo_baz.py` and
`foobar.py`. -/
theorem should_trace_spec :
    (∀ (includePats excludePats : Option (List PStr)) (filename : PStr),
        _should_trace includePats excludePats filename = true ↔
          (¬ (String.toList "mpy_coverage") <:+: filename ∧
           (includePats = none ∨
             ∃ pats, includePats = some pats ∧ ∃ p ∈ pats, p <:+: filename) ∧
           (∀ pats, excludePats = some pats → ∀ p ∈ pats, ¬ p <:+: filename))) ∧
    _should_trace (some [String.toList "foo"]) none (String.toList "bar_foo_baz.py") = true ∧
    _should_trace (some [String.toList "foo"]) none (String.toList "foobar.py") = true := by
  refine ⟨?_, by decide, by decide⟩
  intro includePats excludePats filename
  rcases includePats with _ | pats <;> rcases excludePats with _ | epats <;>
    simp [_should_trace, containsSub_iff, List.any_eq_true]

/-! ## Attribution lemmas (C9) -/

/-- C9 (amended): the run label is the record's `_metadata.test_script`
value when that key is present (not `run_label`); otherwise it is
derived from the storage filename — a `"YYYYMMDD_HHMMSS_"`-shaped
prefix and the `".json"` suffix are stripped, shown here on concrete
storage names. -/
theorem extract_test_name_spec :
    (∀ (jsonPath : PStr) (data : CovData) (v : String),
        lookupA (data.metadata.getD []) "test_script" = some v →
        _extract_test_name jsonPath data = v) ∧
    _extract_test_name (String.toList ".mpy_coverage/20250101_120000_mytest.json")
        { executed := [] } = "mytest" ∧
    _extract_test_name (String.toList "odd.json") { executed := [] } = "odd" := by
  refine ⟨?_, by decide, by decide⟩
  intro jsonPath data v h
  simp only [_extract_test_name]
  rw [h]

/-- Witness for C9: a record whose metadata holds
`test_script = "t1"` is labelled `"t1"` regardless of its storage
path. -/
theorem extract_test_name_spec_witness :
    _extract_test_name (String.toList "x.json")
        { executed := [], metadata := some [("test_script", "t1")] } = "t1" :=
  extract_test_name_spec.1 (String.toList "x.json")
    { executed := [], metadata := some [("test_script", "t1")] } "t1" (by decide)

/-- Counterexample for C9 as stated: a record whose metadata carries
only a `run_label` key is not labelled by it — the code looks up
`test_script`, so the label falls back to the storage filename. -/
theorem extract_test_name_run_label_cex :
    _extract_test_name (String.toList "p.json")
        { executed := [], metadata := some [("run_label", "X")] } = "p" ∧
      ("p" : String) ≠ "X" := by
  constructor
  · decide
  · decide

/-! ## Tracer lifecycle (C10) -/

/-- C10: `stop()` only removes the trace hook — every accumulator and
configuration field is untouched, so `get_data()` (and hence
`export_json()`) after `stop()` returns the completed run's full
capture record; a subsequent `start(...)` is what clears the
accumulated state. -/
theorem stop_preserves_state :
    ∀ s : TracerState,
      (stop s).executed = s.executed ∧
      (stop s).executable = s.executable ∧
      (stop s).arcs = s.arcs ∧
      (stop s).lastLineStack = s.lastLineStack ∧
      (stop s).seenCodes = s.seenCodes ∧
      (stop s).includePats = s.includePats ∧
      (stop s).excludePats = s.excludePats ∧
      (stop s).collectExecutable = s.collectExecutable ∧
      (stop s).collectArcs = s.collectArcs ∧
      (stop s).testScript = s.testScript ∧
      (stop s).traceHook = false ∧
      get_data (stop s) = get_data s ∧
      ∀ (incP excP : Option (List PStr)) (ce ca : Bool) (ts : Option String),
        (start s incP excP ce ca ts).executed = [] ∧
        (start s incP excP ce ca ts).executable = [] ∧
        (start s incP excP ce ca ts).arcs = [] ∧
        (start s incP excP ce ca ts).lastLineStack = [] ∧
        (start s incP excP ce ca ts).seenCodes = [] ∧
        (start s incP excP ce ca ts).traceHook = true :=
  fun _ => ⟨rfl, rfl, rfl, rfl, rfl, rfl, rfl, rfl, rfl, rfl, rfl, rfl,
    fun _ _ _ _ _ => ⟨rfl, rfl, rfl, rfl, rfl, rfl⟩⟩

end MpyCoverage
